import Mathlib

/-!
Shallow embedding of the CryptoScan plugin (`modules/CryptoScan.py`).

The embedding models:
* hex-token handling: `int(tok, 16)`, `tok.replace('0x','')`, and Python's
  lowercase-hex `x` formatting of an integer;
* the scan-configuration and match data model (`ScanConfig`, `DataConstantScanMatch`,
  `ILConstantScanMatch`);
* the binary view / `BinaryReader` surface used by the scanners: a list of
  optional bytes (`none` = unmapped offset), a cursor offset, `eof`,
  `is_valid_offset`, one-byte reads, and relative seeks;
* `seek_next_byte`, `next_byte`, `run_data_constant_scans`,
  `recurse_retrieve_consts`, `run_il_constant_scans`, `run_signature_scans`,
  and the orchestration in `run`.

Logging, progress reporting and the `debug_address` hook touch no scanner
state and are omitted.  Loops are modelled as recursive functions; the outer
data-scan loop takes an explicit fuel argument (the loop strictly advances the
reader offset, so any fuel of at least the view length is sufficient).
-/

/-! ## Hex-token helpers -/

/-- Value of one hexadecimal digit character (0 for non-hex characters; the
source would raise on those, and every claim only uses well-formed tokens). -/
def hexDigitVal (c : Char) : Nat :=
  if '0' ≤ c ∧ c ≤ '9' then c.toNat - '0'.toNat
  else if 'a' ≤ c ∧ c ≤ 'f' then c.toNat - 'a'.toNat + 10
  else if 'A' ≤ c ∧ c ≤ 'F' then c.toNat - 'A'.toNat + 10
  else 0

/-- Drop one leading `0x`/`0X` radix marker, as Python's `int(tok, 16)` does. -/
def dropRadixMarker : List Char → List Char
  | '0' :: 'x' :: rest => rest
  | '0' :: 'X' :: rest => rest
  | l => l

/-- Embedding of Python `int(tok, 16)` on well-formed hexadecimal tokens. -/
def tokenVal (s : String) : Nat :=
  (dropRadixMarker s.data).foldl (fun acc c => acc * 16 + hexDigitVal c) 0

/-- Embedding of Python `tok.replace('0x', '')`: remove every (left-to-right,
non-overlapping) occurrence of the two-character pattern `0x`. -/
def stripHexChars : List Char → List Char
  | '0' :: 'x' :: rest => stripHexChars rest
  | c :: rest => c :: stripHexChars rest
  | [] => []

/-- Embedding of Python's lowercase-hex `x` formatting of an `int`: lowercase
hexadecimal digits without a radix marker, with a leading minus sign for
negative values (and no zero padding). -/
def constValueChars (i : Int) : List Char :=
  if i < 0 then '-' :: Nat.toDigits 16 i.natAbs else Nat.toDigits 16 i.toNat

/-- Embedding of `''.join(flag.replace('0x', '') for flag in chunk)`. -/
def flagValueChars (chunk : List String) : List Char :=
  (chunk.map (fun f => stripHexChars f.data)).flatten

/-- A hexadecimal digit character. -/
def isHexDigitChar (c : Char) : Bool :=
  (('0' ≤ c ∧ c ≤ '9') ∨ ('a' ≤ c ∧ c ≤ 'f') ∨ ('A' ≤ c ∧ c ≤ 'F') : Prop)

/-! ## Data model -/

/-- The fields of `ScanConfig` the scanners read.  `flags` keeps the raw hex
tokens from the JSON configuration (e.g. `"0x4b"`), as the source does. -/
structure ScanConfig where
  name : String
  type : String
  flags : List String
  enabled : Bool
deriving DecidableEq, Repr

/-- `DataConstantScanMatch(scan, address)`. -/
structure DataConstantScanMatch where
  scan : ScanConfig
  address : Nat
deriving DecidableEq, Repr

/-- The MLIL operations this plugin distinguishes: it only ever compares an
operation against `MLIL_CONST`. -/
inductive MLILOperation : Type where
  | MLIL_CONST
  | MLIL_SET_VAR
  | MLIL_ADD
  | MLIL_OTHER
deriving DecidableEq, Repr

/-- A medium-level IL instruction: an operation, an operand list (an operand is
either a sub-instruction, `some i`, or a non-instruction operand such as an
integer or a variable, `none`), plus the `constant` and `size` attributes read
by the IL scanner. -/
inductive MLILInstr : Type where
  | mk (operation : MLILOperation) (operands : List (Option MLILInstr))
       (constant : Int) (size : Nat)

def MLILInstr.operation : MLILInstr → MLILOperation
  | .mk op _ _ _ => op

def MLILInstr.operands : MLILInstr → List (Option MLILInstr)
  | .mk _ ops _ _ => ops

def MLILInstr.constant : MLILInstr → Int
  | .mk _ _ c _ => c

def MLILInstr.size : MLILInstr → Nat
  | .mk _ _ _ sz => sz

/-- `ILConstantScanMatch(scan, instr, chunk)`. -/
structure ILConstantScanMatch where
  scan : ScanConfig
  instr : MLILInstr
  chunk : List String

/-- A result in the orchestrator's aggregate list is either a data-scan match
or an IL-scan match. -/
inductive ScanMatch : Type where
  | data (m : DataConstantScanMatch)
  | il (m : ILConstantScanMatch)

/-! ## Binary view and reader -/

/-- The slice of the BinaryNinja `BinaryView`/`BinaryReader` surface the
scanners use.  `mem i = some b` means offset `i` is valid and holds byte `b`;
`mem i = none` (or `i` out of range) means `is_valid_offset` is false there.
The reader cursor is threaded explicitly as a `Nat` offset; `len(self.bv)` is
`mem.length` and `BinaryReader.eof` is `mem.length ≤ offset`. -/
structure BinaryView where
  mem : List (Option Nat)

/-- Byte at an offset (`none` when unmapped or out of range). -/
def BinaryView.byteAt (bv : BinaryView) (o : Nat) : Option Nat :=
  bv.mem.getD o none

/-- `self.bv.is_valid_offset(o)`. -/
def BinaryView.validOffset (bv : BinaryView) (o : Nat) : Bool :=
  (bv.byteAt o).isSome

/-- `self.br.eof` at cursor `o`. -/
def BinaryView.eofAt (bv : BinaryView) (o : Nat) : Bool :=
  bv.mem.length ≤ o

/-- Embedding of the skip loop shared by `seek_next_byte` and `next_byte`:
`while not self.bv.is_valid_offset(self.br.offset) and not self.br.eof:
self.br.seek_relative(1)`.  The loop advances by one offset per iteration and
stops at `eof`, so fuel `bv.mem.length` always suffices; callers pass that. -/
def skipInvalidOffsets (bv : BinaryView) : Nat → Nat → Nat
  | 0, o => o
  | fuel + 1, o =>
    if o < bv.mem.length ∧ bv.byteAt o = none then skipInvalidOffsets bv fuel (o + 1)
    else o

/-- The read loop of `seek_next_byte`:
`while not self.br.eof and dist <= max_dist:` with `dist += 1`, a one-byte
read (which advances the cursor on success; on failure the source compensates
with `seek_relative(1)`), and an early return when the byte is non-zero or
nulls are allowed.  `r` counts the iterations still permitted, i.e.
`max_dist + 1 - dist`; the result is `(byte-or-none, dist, new offset)`. -/
def seekLoop (bv : BinaryView) (allow_null : Bool) :
    Nat → Nat → Nat → Option Nat × Nat × Nat
  | o, dist, 0 => (none, dist, o)
  | o, dist, r + 1 =>
    if bv.mem.length ≤ o then (none, dist, o)
    else
      match bv.byteAt o with
      | none => seekLoop bv allow_null (o + 1) (dist + 1) r
      | some b =>
        if b ≠ 0 ∨ allow_null then (some b, dist + 1, o + 1)
        else seekLoop bv allow_null (o + 1) (dist + 1) r

/-- `CryptoScan.seek_next_byte(max_dist = 15, allow_null = False)` at cursor
`o`: doubling-plus-one of the bound when nulls are allowed, the
invalid-offset skip loop, then the bounded read loop.  Returns
`(byte-or-none, dist, new cursor offset)`. -/
def seek_next_byte (bv : BinaryView) (o : Nat) (max_dist : Nat := 15)
    (allow_null : Bool := false) : Option Nat × Nat × Nat :=
  let md := if allow_null then max_dist * 2 + 1 else max_dist
  let o1 := skipInvalidOffsets bv bv.mem.length o
  seekLoop bv allow_null o1 0 (md + 1)

/-- `CryptoScan.next_byte` at cursor `o`: skip invalid offsets, return `none`
at `eof`, else read one byte (the post-skip offset is valid or `eof`, so the
read cannot fail; the `none` fallback is unreachable). -/
def next_byte (bv : BinaryView) (o : Nat) : Option Nat × Nat :=
  let o1 := skipInvalidOffsets bv bv.mem.length o
  if bv.mem.length ≤ o1 then (none, o1)
  else
    match bv.byteAt o1 with
    | some b => (some b, o1 + 1)
    | none => (none, o1)

/-! ## Data constant scan -/

/-- The flag-fetch loop of `run_data_constant_scans` (lines 156-165): for each
remaining flag token, decide `null_wanted`, call `seek_next_byte`, accumulate
`bytes_read`, and keep the byte when the seek succeeded.  Returns
`(test_bytes, bytes_read, new cursor offset)`. -/
def fetchFlagBytes (bv : BinaryView) : List String → Nat → List Nat × Nat × Nat
  | [], o => ([], 0, o)
  | f :: rest, o =>
    let null_wanted := tokenVal f = 0
    let (b, cnt, o1) := seek_next_byte bv o 15 null_wanted
    let (tbs, more, o2) := fetchFlagBytes bv rest o1
    (match b with
     | some tb => tb :: tbs
     | none => tbs, cnt + more, o2)

/-- One trigger investigation (the body of `if b == int(trigger, 16):`): fetch
the remaining flag bytes, confirm the match, compute the reported address as
`self.br.offset - (bytes_read + 1)`, and track back with
`self.br.offset -= bytes_read`.  Returns the optional match and the cursor
offset after the track-back. -/
def investigateTrigger (bv : BinaryView) (scan : ScanConfig) (o : Nat) :
    Option DataConstantScanMatch × Nat :=
  let flag_count := scan.flags.length - 1
  let (test_bytes, bytes_read, o1) := fetchFlagBytes bv scan.flags.tail o
  let res :=
    if test_bytes.length = flag_count ∧ test_bytes = scan.flags.tail.map tokenVal
    then some ⟨scan, o1 - (bytes_read + 1)⟩
    else none
  (res, o1 - bytes_read)

/-- The `for index, trigger in enumerate(triggers):` loop over one scanned
byte `b`: each scan whose trigger (`int(scan.flags[0], 16)`) equals `b` is
investigated, from the cursor position the previous investigation left. -/
def triggerPass (bv : BinaryView) : List ScanConfig → Nat → Nat →
    List DataConstantScanMatch × Nat
  | [], _, o => ([], o)
  | scan :: rest, b, o =>
    if b = tokenVal (scan.flags.headD "") then
      let (m, o1) := investigateTrigger bv scan o
      let (ms, o2) := triggerPass bv rest b o1
      (m.toList ++ ms, o2)
    else triggerPass bv rest b o

/-- The outer `while not self.br.eof and not self.cancelled:` loop of
`run_data_constant_scans`.  `cancel` is the cooperatively polled cancellation
flag, indexed by the iteration counter `k`; the returned list concatenates the
matches in discovery order (the source appends them to `results`). -/
def scanLoop (bv : BinaryView) (scans : List ScanConfig) (cancel : Nat → Bool) :
    Nat → Nat → Nat → List DataConstantScanMatch
  | 0, _, _ => []
  | fuel + 1, o, k =>
    if bv.mem.length ≤ o ∨ cancel k then []
    else
      match next_byte bv o with
      | (none, _) => []
      | (some b, o1) =>
        let (ms, o2) := triggerPass bv scans b o1
        ms ++ scanLoop bv scans cancel fuel o2 (k + 1)

/-- The `static`/`enabled` restriction applied by both scanners:
`[scan for scan in self.scanconfigs if scan.type == 'static' and scan.enabled]`. -/
def staticScans (configs : List ScanConfig) : List ScanConfig :=
  configs.filter (fun s => s.type == "static" && s.enabled)

/-- `CryptoScan.run_data_constant_scans`, with the reader starting at offset 0
(a fresh `BinaryReader`).  `fuel ≥ bv.mem.length` makes the fuel irrelevant. -/
def run_data_constant_scans (bv : BinaryView) (configs : List ScanConfig)
    (cancel : Nat → Bool) (fuel : Nat) : List DataConstantScanMatch :=
  scanLoop bv (staticScans configs) cancel fuel 0 0

/-! ## IL constant scan -/

mutual
/-- `CryptoScan.recurse_retrieve_consts`: an `MLIL_CONST` instruction is
yielded itself; otherwise every operand that is an `MediumLevelILInstruction`
is recursed into, in operand order, and other operands are ignored. -/
def recurse_retrieve_consts : MLILInstr → List MLILInstr
  | .mk op ops c sz =>
    if op = .MLIL_CONST then [.mk op ops c sz]
    else retrieveFromOperands ops
def retrieveFromOperands : List (Option MLILInstr) → List MLILInstr
  | [] => []
  | none :: rest => retrieveFromOperands rest
  | some i :: rest => recurse_retrieve_consts i ++ retrieveFromOperands rest
end

/-- The chunk list of line 86:
`[scan.flags[i * instr.size:(i+1) * instr.size] for i in range((len(scan.flags) + 3) // 4)]`
(Python slice `l[a:b]` with `0 ≤ a ≤ b` is drop-then-take). -/
def ilChunks (flags : List String) (size : Nat) : List (List String) :=
  (List.range ((flags.length + 3) / 4)).map fun i => (flags.drop (i * size)).take size

/-- `CryptoScan.run_il_constant_scans`: collect the constants of every MLIL
instruction, drop those of size ≤ 1, and for each retained constant, candidate
scan and full-length chunk, record a match when the joined chunk hex string
equals the constant's lowercase-hex rendering. -/
def run_il_constant_scans (instructions : List MLILInstr)
    (configs : List ScanConfig) : List ILConstantScanMatch :=
  let scans := staticScans configs
  let const_instructions := instructions.flatMap recurse_retrieve_consts
  const_instructions.flatMap fun instr =>
    if instr.size > 1 then
      scans.flatMap fun scan =>
        (ilChunks scan.flags instr.size).flatMap fun chunk =>
          if chunk.length = instr.size ∧
              constValueChars instr.constant = flagValueChars chunk
          then [⟨scan, instr, chunk⟩]
          else []
    else []

/-- `CryptoScan.run_signature_scans`: the loop body is a bare docstring, so the
function returns an empty result list for every input. -/
def run_signature_scans (_configs : List ScanConfig) : List ScanMatch :=
  []

/-! ## Orchestration (`CryptoScan.run`) -/

/-- The observable outcome of `run`: the aggregated result list, whether the
post-processing branch (`apply_symbols` + `display_results`) ran
(`len(results) is not 0`, identity on the cached small int 0, i.e. `≠ 0`),
and whether the no-results message box was shown. -/
structure RunOutcome where
  results : List ScanMatch
  processedResults : Bool
  shownNoResults : Bool

/-- `CryptoScan.run`.  `static`/`signature` are `self.options`; `c1`, `c2`,
`c3` are the values of `self.cancelled` at its three read sites (line 47,
line 51, line 56/64).  Note that the call to `run_data_constant_scans` at
line 45 is commented out in the source, so no data-scan matches ever enter
`results`; the `bv` and `fuel` arguments exist only because the commented
call would need them. -/
def CryptoScan.run (_bv : BinaryView) (instructions : List MLILInstr)
    (configs : List ScanConfig) (static signature : Bool)
    (c1 c2 c3 : Bool) (_fuel : Nat) : RunOutcome :=
  let r1 : List ScanMatch :=
    if static then
      if ¬c1 then (run_il_constant_scans instructions configs).map .il else []
    else []
  let r2 : List ScanMatch :=
    if signature ∧ ¬c2 then run_signature_scans configs else []
  let results := r1 ++ r2
  { results := results
    processedResults := results.length != 0
    shownNoResults := results.length == 0 && !c3 }

/-! ## Specification-side definitions

These follow the spec's words (pre-order traversal, constant leaves,
fully-mapped views) and exist to be compared with the source-derived
functions above. -/

/-- A fully-mapped ("all readable") view over a list of bytes. -/
def allValid (mem : List Nat) : BinaryView :=
  ⟨mem.map some⟩

/-- Whether an instruction node is a constant-value node. -/
def isConstInstr (i : MLILInstr) : Bool :=
  i.operation == .MLIL_CONST

mutual
/-- All instruction nodes of an operand tree, in pre-order, left-to-right
operand order (spec-side definition for claim C8). -/
def preorderNodes : MLILInstr → List MLILInstr
  | .mk op ops c sz => .mk op ops c sz :: preorderNodesOps ops
def preorderNodesOps : List (Option MLILInstr) → List MLILInstr
  | [] => []
  | none :: rest => preorderNodesOps rest
  | some i :: rest => preorderNodes i ++ preorderNodesOps rest
end

mutual
/-- Well-formedness of an operand tree as BinaryNinja produces it: a
constant-value node is a leaf, i.e. has no sub-instruction operands (the
operand of `MLIL_CONST` is a plain integer). -/
def wfConstLeaves : MLILInstr → Bool
  | .mk op ops _ _ =>
    ((op != .MLIL_CONST) || ops.all (fun o => o.isNone)) && wfConstLeavesOps ops
def wfConstLeavesOps : List (Option MLILInstr) → Bool
  | [] => true
  | none :: rest => wfConstLeavesOps rest
  | some i :: rest => wfConstLeaves i && wfConstLeavesOps rest
end

/-! ## Concrete fixtures used by the claim theorems and witnesses -/

/-- A config with a single-byte flag sequence. -/
def cfgK : ScanConfig := ⟨"KTest", "static", ["0x4b"], true⟩

/-- A one-byte fully-mapped view holding the `cfgK` trigger byte. -/
def bv1 : BinaryView := ⟨[some 0x4B]⟩

/-- A two-flag config: trigger `0xAA`, then `0xBB`. -/
def cfgAB : ScanConfig := ⟨"AB", "static", ["0xaa", "0xbb"], true⟩

/-- Bytes `AA`, then `p` zero-padding bytes, then `BB`. -/
def padMem (p : Nat) : List Nat :=
  0xAA :: (List.replicate p 0 ++ [0xBB])

/-- The fully-mapped view over `padMem p`. -/
def padView (p : Nat) : BinaryView :=
  allValid (padMem p)

/-- A view with an unmapped hole: `AA`, unmapped, `BB`. -/
def bvGap : BinaryView := ⟨[some 0xAA, none, some 0xBB]⟩

/-- A constant-value instruction of a given value and byte width. -/
def constInstr (v : Int) (sz : Nat) : MLILInstr :=
  .mk .MLIL_CONST [] v sz

/-- The end-to-end IL-scan config of the spec's test: flags
`0x01 0x02 0x03 0x04`. -/
def cfgTest : ScanConfig := ⟨"TestConst", "static", ["0x01", "0x02", "0x03", "0x04"], true⟩

/-- A four-flag config whose bytes carry no leading zero nibble. -/
def cfg1234 : ScanConfig := ⟨"T4", "static", ["0x11", "0x22", "0x33", "0x44"], true⟩

/-- An eight-flag config, for exercising the chunk partitioning with a
two-byte-wide constant. -/
def cfg8 : ScanConfig :=
  ⟨"T8", "static", ["0x11", "0x22", "0x33", "0x44", "0x55", "0x66", "0x77", "0x88"], true⟩

/-- An operand tree with two constant leaves at different depths plus a
non-instruction operand. -/
def exTree : MLILInstr :=
  .mk .MLIL_ADD
    [some (constInstr 7 4), none,
     some (.mk .MLIL_SET_VAR [none, some (constInstr 9 4)] 0 0)] 0 0

/-! ## Helper lemmas -/

theorem allValid_length (mem : List Nat) : (allValid mem).mem.length = mem.length := by
  simp [allValid]

theorem byteAt_allValid_lt {mem : List Nat} {o : Nat} (h : o < mem.length) :
    (allValid mem).byteAt o = some (mem.getD o 0) := by
  simp [allValid, BinaryView.byteAt, List.getD_eq_getElem?_getD, List.getElem?_map,
    List.getElem?_eq_getElem h]

theorem lt_length_of_byteAt_some {bv : BinaryView} {o b : Nat}
    (h : bv.byteAt o = some b) : o < bv.mem.length := by
  by_contra hge
  rw [BinaryView.byteAt, List.getD_eq_getElem?_getD,
    List.getElem?_eq_none (by omega)] at h
  simp at h

theorem skipInvalid_of_some {bv : BinaryView} {o b : Nat}
    (h : bv.byteAt o = some b) : ∀ fuel, skipInvalidOffsets bv fuel o = o
  | 0 => rfl
  | fuel + 1 => by simp [skipInvalidOffsets, h]

theorem skipInvalid_allValid (mem : List Nat) :
    ∀ fuel o, skipInvalidOffsets (allValid mem) fuel o = o := by
  intro fuel o
  match fuel with
  | 0 => rfl
  | fuel + 1 =>
    by_cases h : o < mem.length
    · simp [skipInvalidOffsets, byteAt_allValid_lt h]
    · simp [skipInvalidOffsets, allValid_length]
      omega

theorem next_byte_allValid {mem : List Nat} {o : Nat} (h : o < mem.length) :
    next_byte (allValid mem) o = (some (mem.getD o 0), o + 1) := by
  rw [next_byte, skipInvalid_allValid]
  rw [byteAt_allValid_lt h]
  simp [allValid_length]
  omega

theorem seekLoop_ret {bv : BinaryView} {allow : Bool} {o d r b : Nat}
    (h : bv.byteAt o = some b) (hcond : b ≠ 0 ∨ allow = true) :
    seekLoop bv allow o d (r + 1) = (some b, d + 1, o + 1) := by
  have hlt := lt_length_of_byteAt_some h
  simp only [seekLoop, if_neg (show ¬bv.mem.length ≤ o by omega), h, if_pos hcond]

/-! ## Claim C1 -/

/-- C1: the claim states that with the `static` option enabled the orchestrator
runs the data constant scan and then the IL constant scan, aggregating
data-scan matches followed by IL-scan matches.  The source comments out the
`run_data_constant_scans` call (line 45), so `run` returns no data matches even
on a view where the data scanner, called directly, confirms one: with the
single-byte view `bv1` and config `cfgK`, `run` yields an empty result list
while `run_data_constant_scans` yields a match at address 0. -/
theorem C1_run_omits_data_scan :
    (CryptoScan.run bv1 [] [cfgK] true false false false false 1).results = []
    ∧ run_data_constant_scans bv1 [cfgK] (fun _ => false) 1 = [⟨cfgK, 0⟩] :=
  ⟨rfl, rfl⟩

/-! ## Claim C2 -/

/-- C2: the claim states the IL scanner partitions a config's flags into
`ceil(len(flags) / w)` chunks covering the whole sequence, so that every
aligned full-width chunk is compared.  The source hard-codes
`(len(flags) + 3) // 4` chunks.  For the eight-flag config `cfg8` and a
two-byte constant the code builds only two chunks, covering flags 0-3; the
aligned full-width chunk `0x55 0x66` renders exactly like the constant
`0x5566` yet is never generated, and the scan misses the constant. -/
theorem C2_chunk_count_hardcodes_four :
    ilChunks cfg8.flags 2 = [["0x11", "0x22"], ["0x33", "0x44"]]
    ∧ constValueChars 0x5566 = flagValueChars ["0x55", "0x66"]
    ∧ ["0x55", "0x66"] ∉ ilChunks cfg8.flags 2
    ∧ run_il_constant_scans [constInstr 0x5566 2] [cfg8] = [] :=
  ⟨rfl, rfl, by decide, rfl⟩

/-! ## Claim C3 -/

/-- C3: the claim states that config `TestConst` with flags
`0x01 0x02 0x03 0x04` yields exactly one match on a 4-byte constant
`0x01020304` and none on `0x01020305`.  The code renders the constant with
Python's unpadded lowercase-hex formatting, producing the 7-character string
`1020304`, which never equals the 8-character chunk string `01020304`; so the
scan returns zero matches in both cases. -/
theorem C3_il_scan_misses_test_constant :
    run_il_constant_scans [constInstr 0x01020304 4] [cfgTest] = []
    ∧ run_il_constant_scans [constInstr 0x01020305 4] [cfgTest] = []
    ∧ constValueChars 0x01020304 = ['1', '0', '2', '0', '3', '0', '4']
    ∧ flagValueChars ["0x01", "0x02", "0x03", "0x04"]
      = ['0', '1', '0', '2', '0', '3', '0', '4'] :=
  ⟨rfl, rfl, rfl, rfl⟩

/-! ## Claim C9 -/

/-- C9: when `seek_next_byte` is called with `allow_null = true` at a position
holding a readable byte, it returns that byte with a consumed count of 1,
regardless of the byte's value: the early-return condition
`byte != 0 or allow_null` is vacuously true, so no zero-skipping occurs and
the enlarged 31-distance bound is never reached. -/
theorem C9_allow_null_returns_first_byte (bv : BinaryView) (o b : Nat)
    (h : bv.byteAt o = some b) :
    seek_next_byte bv o 15 true = (some b, 1, o + 1) := by
  show seekLoop bv true (skipInvalidOffsets bv bv.mem.length o) 0 (15 * 2 + 1 + 1) = _
  rw [skipInvalid_of_some h]
  exact seekLoop_ret h (Or.inr rfl)

/-- Witness for C9 at a concrete input: the byte at the current position is a
null byte, and it is still returned immediately with count 1. -/
theorem C9_witness :
    seek_next_byte (⟨[some 0, some 7]⟩ : BinaryView) 0 15 true = (some 0, 1, 1) :=
  C9_allow_null_returns_first_byte ⟨[some 0, some 7]⟩ 0 0 rfl

/-! ## Cursor-advance lemmas (for C4 and C5) -/

/-- In the read loop every iteration advances the cursor by exactly one and
increments `dist` by exactly one, so the final cursor offset exceeds the
initial one by exactly the final `dist` minus the initial one. -/
theorem seekLoop_advance (bv : BinaryView) (allow : Bool) :
    ∀ r o d, (seekLoop bv allow o d r).2.2 + d = o + (seekLoop bv allow o d r).2.1 := by
  intro r
  induction r with
  | zero => intro o d; simp [seekLoop]
  | succ r ih =>
    intro o d
    by_cases heof : bv.mem.length ≤ o
    · simp [seekLoop, heof]
    · cases hb : bv.byteAt o with
      | none =>
        simp only [seekLoop, if_neg heof, hb]
        have := ih (o + 1) (d + 1)
        omega
      | some b =>
        by_cases hcb : b ≠ 0 ∨ allow = true
        · simp only [seekLoop, if_neg heof, hb, if_pos hcb]
          omega
        · simp only [seekLoop, if_neg heof, hb, if_neg hcb]
          have := ih (o + 1) (d + 1)
          omega

/-- On a fully-mapped view the whole of `seek_next_byte` advances the cursor
by exactly the returned count: the invalid-offset skip loop never moves. -/
theorem seek_next_byte_advance (mem : List Nat) (o md : Nat) (allow : Bool) :
    (seek_next_byte (allValid mem) o md allow).2.2
      = o + (seek_next_byte (allValid mem) o md allow).2.1 := by
  show (seekLoop _ _ (skipInvalidOffsets _ _ o) 0 _).2.2
    = o + (seekLoop _ _ (skipInvalidOffsets _ _ o) 0 _).2.1
  rw [skipInvalid_allValid]
  have := seekLoop_advance (allValid mem) allow
    ((if allow then md * 2 + 1 else md) + 1) o 0
  omega

/-- On a fully-mapped view the flag-fetch loop advances the cursor by exactly
the accumulated `bytes_read`. -/
theorem fetchFlagBytes_advance (mem : List Nat) :
    ∀ (flags : List String) (o : Nat),
      (fetchFlagBytes (allValid mem) flags o).2.2
        = o + (fetchFlagBytes (allValid mem) flags o).2.1 := by
  intro flags
  induction flags with
  | nil => intro o; simp [fetchFlagBytes]
  | cons f rest ih =>
    intro o
    rcases hseek : seek_next_byte (allValid mem) o 15 (tokenVal f = 0) with ⟨b, cnt, o1⟩
    have h1 : o1 = o + cnt := by
      have := seek_next_byte_advance mem o 15 (tokenVal f = 0)
      rw [hseek] at this
      exact this
    rcases hfetch : fetchFlagBytes (allValid mem) rest o1 with ⟨tbs, more, o2⟩
    have h2 : o2 = o1 + more := by
      have := ih o1
      rw [hfetch] at this
      exact this
    simp only [fetchFlagBytes, hseek, hfetch]
    cases b <;> omega

/-! ## Claim C5 -/

/-- C5 counterexample: the claim states that after every trigger investigation
the cursor is restored to the position immediately after the trigger byte,
including advances made while skipping invalid offsets.  On the view
`AA`-unmapped-`BB` with config `cfgAB`, the trigger sits at offset 0, so the
restored position should be 1; but `seek_next_byte`'s initial skip loop
advances past the unmapped offset 1 without counting it in the returned
distance, `bytes_read` undercounts the advance, and the investigation leaves
the cursor at 2. -/
theorem C5_counterexample_unmapped_gap :
    (investigateTrigger bvGap cfgAB 1).2 = 2
    ∧ (investigateTrigger bvGap cfgAB 1).2 ≠ 1 := by
  decide

/-- C5 amended: the track-back subtracts exactly the counted lookahead reads,
which equals the total lookahead advance precisely when the lookahead skipped
no invalid offsets; hence on a fully-mapped view every trigger investigation
restores the cursor to the position immediately after the trigger byte
(advances made skipping unmapped offsets, by contrast, are not undone). -/
theorem C5_restore_on_fully_mapped (mem : List Nat) (scan : ScanConfig) (o : Nat) :
    (investigateTrigger (allValid mem) scan o).2 = o := by
  rw [investigateTrigger]
  rcases hfetch : fetchFlagBytes (allValid mem) scan.flags.tail o with ⟨tbs, br, o1⟩
  have h1 : o1 = o + br := by
    have := fetchFlagBytes_advance mem scan.flags.tail o
    rw [hfetch] at this
    exact this
  simp
  omega

/-! ## Claim C4 -/

theorem padMem_length (p : Nat) : (padMem p).length = p + 2 := by
  simp [padMem]

theorem padView_length (p : Nat) : (padView p).mem.length = p + 2 := by
  simp [padView, allValid_length, padMem_length]

theorem padMem_getD_mid (p o : Nat) (h1 : 1 ≤ o) (h2 : o ≤ p) :
    (padMem p).getD o 0 = 0 := by
  obtain ⟨m, rfl⟩ : ∃ m, o = m + 1 := ⟨o - 1, by omega⟩
  rw [padMem, List.getD_cons_succ]
  rw [List.getD_eq_getElem?_getD, List.getElem?_append_left (by simp; omega),
    List.getElem?_replicate, if_pos (by omega : m < p)]
  rfl

theorem padMem_getD_last (p : Nat) : (padMem p).getD (p + 1) 0 = 0xBB := by
  rw [padMem, List.getD_cons_succ]
  rw [List.getD_eq_getElem?_getD, List.getElem?_append_right (by simp)]
  simp

/-- Scanning the zero padding: starting anywhere inside the padding (or at the
final `BB` byte), the read loop keeps reading zeros until it either reaches
the `BB` byte within its remaining iteration budget or exhausts the budget. -/
theorem seekLoop_pad (p : Nat) :
    ∀ r j d, 1 ≤ j → j ≤ p + 1 →
      seekLoop (padView p) false j d r
        = if p + 1 - j < r then (some 0xBB, d + (p + 1 - j) + 1, p + 2)
          else (none, d + r, j + r) := by
  intro r
  induction r with
  | zero =>
    intro j d _ _
    simp [seekLoop]
  | succ r ih =>
    intro j d h1 h2
    have heof : ¬(padView p).mem.length ≤ j := by rw [padView_length]; omega
    by_cases hj : j = p + 1
    · subst hj
      have hb : (padView p).byteAt (p + 1) = some 0xBB := by
        rw [padView, byteAt_allValid_lt (by rw [padMem_length]; omega), padMem_getD_last]
      simp only [seekLoop, if_neg heof, hb, if_pos (by norm_num : (0xBB : Nat) ≠ 0 ∨ False)]
      rw [if_pos (by omega)]
      simp
    · have hb : (padView p).byteAt j = some 0 := by
        rw [padView, byteAt_allValid_lt (by rw [padMem_length]; omega),
          padMem_getD_mid p j h1 (by omega)]
      simp only [seekLoop, if_neg heof, hb]
      rw [if_neg (by simp)]
      rw [ih (j + 1) (d + 1) (by omega) (by omega)]
      by_cases hc : p + 1 - j < r + 1
      · rw [if_pos (by omega), if_pos hc]
        have : p + 1 - (j + 1) = p - j := by omega
        simp [Prod.ext_iff]
        omega
      · rw [if_neg (by omega), if_neg hc]
        simp [Prod.ext_iff]
        omega

theorem skipInvalid_padView (p : Nat) :
    ∀ fuel o, skipInvalidOffsets (padView p) fuel o = o :=
  fun fuel o => skipInvalid_allValid (padMem p) fuel o

theorem seek_next_byte_pad (p : Nat) :
    seek_next_byte (padView p) 1 15 false
      = if p ≤ 15 then (some 0xBB, p + 1, p + 2) else (none, 16, 17) := by
  show seekLoop (padView p) false
      (skipInvalidOffsets (padView p) (padView p).mem.length 1) 0 (15 + 1) = _
  rw [skipInvalid_padView]
  rw [seekLoop_pad p 16 1 0 le_rfl (by omega)]
  by_cases hp : p ≤ 15
  · rw [if_pos (by omega : p + 1 - 1 < 16), if_pos hp]
    simp [Prod.ext_iff]
  · rw [if_neg (by omega : ¬(p + 1 - 1 < 16)), if_neg hp]

theorem investigateTrigger_pad (p : Nat) :
    investigateTrigger (padView p) cfgAB 1
      = if p ≤ 15 then (some ⟨cfgAB, 0⟩, 1) else (none, 1) := by
  rw [investigateTrigger]
  rw [show cfgAB.flags.tail = ["0xbb"] from rfl]
  rw [fetchFlagBytes]
  rw [show (decide (tokenVal "0xbb" = 0)) = false from rfl]
  rw [seek_next_byte_pad p]
  by_cases hp : p ≤ 15
  · rw [if_pos hp, if_pos hp]
    simp only [fetchFlagBytes]
    rw [if_pos (by decide)]
    simp [Prod.ext_iff]
  · rw [if_neg hp, if_neg hp]
    simp only [fetchFlagBytes]
    rw [if_neg (by decide)]

theorem scanLoop_pad_tail (p : Nat) :
    ∀ fuel o k, 1 ≤ o →
      scanLoop (padView p) [cfgAB] (fun _ => false) fuel o k = [] := by
  intro fuel
  induction fuel with
  | zero => intro o k _; rfl
  | succ fuel ih =>
    intro o k h1
    by_cases heof : (padView p).mem.length ≤ o
    · simp [scanLoop, heof]
    · have hlt : o < p + 2 := by rw [padView_length] at heof; omega
      have hnb : next_byte (padView p) o = (some ((padMem p).getD o 0), o + 1) :=
        @next_byte_allValid (padMem p) o (by rw [padMem_length]; omega)
      have hbyte : ¬((padMem p).getD o 0 = tokenVal (cfgAB.flags.headD "")) := by
        by_cases ho : o ≤ p
        · rw [padMem_getD_mid p o h1 ho]
          decide
        · rw [show o = p + 1 by omega, padMem_getD_last]
          decide
      have htp : triggerPass (padView p) [cfgAB] ((padMem p).getD o 0) (o + 1)
          = ([], o + 1) := by
        rw [triggerPass, if_neg hbyte]
        rfl
      simp only [scanLoop, if_neg (show ¬((padView p).mem.length ≤ o ∨
        ((fun (_ : Nat) => false) k) = true) by simp [heof]), hnb, htp]
      rw [List.nil_append]
      exact ih (o + 1) (k + 1) (by omega)

/-- C4 counterexample: the claim bounds the lookahead at 15 byte reads when
nulls are disallowed, so a padding of 15 zeros (which requires a 16th read to
reach the real byte) should fail to match; but the source checks
`dist <= max_dist` before incrementing, performs a 16th read, and reports the
match: the seek returns the target byte with a consumed count of 16, and the
full scan over `AA`, 15 zeros, `BB` still reports a match at address 0. -/
theorem C4_counterexample_sixteenth_read :
    (seek_next_byte (allValid (List.replicate 15 0 ++ [0xBB])) 0 15 false).2.1 = 16
    ∧ run_data_constant_scans (padView 15) [cfgAB] (fun _ => false) 17
      = [⟨cfgAB, 0⟩] := by
  constructor
  · rfl
  · rfl

/-- C4 amended: `seek_next_byte` performs up to `max_dist + 1` reads — 16 when
nulls are disallowed and 32 when they are allowed (the bound is compared
before `dist` is incremented) — so for `flags = [0xAA, 0xBB]` scanned against
`AA`, `p` padding zeros, `BB`, a match at address 0 is reported exactly when
`p ≤ 15`. -/
theorem C4_amended_lookahead_bound (p fuel : Nat) (hfuel : p + 2 ≤ fuel) :
    run_data_constant_scans (padView p) [cfgAB] (fun _ => false) fuel
      = if p ≤ 15 then [⟨cfgAB, 0⟩] else [] := by
  obtain ⟨f, rfl⟩ : ∃ f, fuel = f + 1 := ⟨fuel - 1, by omega⟩
  rw [run_data_constant_scans, show staticScans [cfgAB] = [cfgAB] from rfl]
  have hnb : next_byte (padView p) 0 = (some 0xAA, 1) :=
    @next_byte_allValid (padMem p) 0 (by rw [padMem_length]; omega)
  simp only [scanLoop, if_neg (show ¬((padView p).mem.length ≤ 0 ∨
    ((fun (_ : Nat) => false) 0) = true) by simp [padView_length]), hnb]
  rw [triggerPass, if_pos (by decide : (0xAA : Nat) = tokenVal (cfgAB.flags.headD ""))]
  rw [investigateTrigger_pad p]
  by_cases hp : p ≤ 15
  · rw [if_pos hp, if_pos hp]
    simp only [triggerPass, Option.toList]
    rw [scanLoop_pad_tail p f 1 1 (by omega)]
    rfl
  · rw [if_neg hp, if_neg hp]
    simp only [triggerPass, Option.toList]
    rw [scanLoop_pad_tail p f 1 1 (by omega)]
    rfl

/-- Witness for the amended C4 bound at the boundary padding length 15 with
exactly sufficient fuel. -/
theorem C4_amended_witness :
    run_data_constant_scans (padView 15) [cfgAB] (fun _ => false) 20
      = [⟨cfgAB, 0⟩] :=
  (C4_amended_lookahead_bound 15 20 (by decide)).trans (by decide)

/-! ## Claim C6 -/

/-- A config with a single flag token needs no lookahead: the trigger byte
alone confirms the match, `bytes_read` is 0, and the reported address is the
cursor minus one, i.e. the trigger position. -/
theorem investigateTrigger_singleton (bv : BinaryView) (cfg : ScanConfig)
    (t : String) (hf : cfg.flags = [t]) (o : Nat) :
    investigateTrigger bv cfg o = (some ⟨cfg, o - 1⟩, o) := by
  rw [investigateTrigger, hf]
  simp [fetchFlagBytes]

theorem triggerPass_singleton (bv : BinaryView) (cfg : ScanConfig)
    (t : String) (hf : cfg.flags = [t]) (b o : Nat) :
    triggerPass bv [cfg] b o
      = if b = tokenVal t then ([⟨cfg, o - 1⟩], o) else ([], o) := by
  rw [triggerPass, show cfg.flags.headD "" = t by rw [hf]; rfl]
  by_cases hb : b = tokenVal t
  · rw [if_pos hb, if_pos hb, investigateTrigger_singleton bv cfg t hf o]
    rfl
  · rw [if_neg hb, if_neg hb]
    rfl

theorem scanLoop_singleton (mem : List Nat) (cfg : ScanConfig) (t : String)
    (hf : cfg.flags = [t]) :
    ∀ fuel o k, mem.length ≤ o + fuel →
      scanLoop (allValid mem) [cfg] (fun _ => false) fuel o k
        = ((List.range' o (mem.length - o)).filter
            (fun i => mem.getD i 0 == tokenVal t)).map (fun i => ⟨cfg, i⟩) := by
  intro fuel
  induction fuel with
  | zero =>
    intro o k h
    rw [show mem.length - o = 0 by omega]
    rfl
  | succ fuel ih =>
    intro o k h
    by_cases heof : mem.length ≤ o
    · rw [show mem.length - o = 0 by omega]
      simp [scanLoop, allValid_length, heof]
    · have hlt : o < mem.length := by omega
      have hnb := @next_byte_allValid mem o hlt
      simp only [scanLoop, if_neg (show ¬((allValid mem).mem.length ≤ o ∨
        ((fun (_ : Nat) => false) k) = true) by simp [allValid_length]; omega), hnb,
        triggerPass_singleton (allValid mem) cfg t hf]
      rw [show mem.length - o = (mem.length - (o + 1)) + 1 by omega,
        List.range'_succ o (mem.length - (o + 1)) 1, List.filter_cons]
      by_cases hb : mem.getD o 0 = tokenVal t
      · rw [if_pos hb, if_pos (by simpa using hb)]
        rw [ih (o + 1) (k + 1) (by omega)]
        simp
      · rw [if_neg hb, if_neg (by simpa using hb)]
        rw [ih (o + 1) (k + 1) (by omega)]
        simp

/-- C6: for an enabled `static` config whose flags sequence has exactly one
token, the data scanner over a fully-mapped view emits exactly one match per
occurrence of the trigger byte, in ascending order, whose recorded address
(the cursor minus the zero lookahead consumption minus one) is exactly the
occurrence's offset. -/
theorem C6_singleton_one_match_per_occurrence (mem : List Nat)
    (cfg : ScanConfig) (t : String) (hf : cfg.flags = [t])
    (ht : cfg.type = "static") (he : cfg.enabled = true) :
    run_data_constant_scans (allValid mem) [cfg] (fun _ => false) mem.length
      = ((List.range mem.length).filter
          (fun i => mem.getD i 0 == tokenVal t)).map (fun i => ⟨cfg, i⟩) := by
  rw [run_data_constant_scans,
    show staticScans [cfg] = [cfg] by simp [staticScans, ht, he]]
  rw [scanLoop_singleton mem cfg t hf mem.length 0 0 (by omega),
    List.range_eq_range']
  rfl

/-- Witness for C6: bytes `4B 00 4B` produce exactly two matches, at
addresses 0 and 2. -/
theorem C6_witness :
    run_data_constant_scans (allValid [0x4B, 0x00, 0x4B]) [cfgK]
      (fun _ => false) 3 = [⟨cfgK, 0⟩, ⟨cfgK, 2⟩] :=
  (C6_singleton_one_match_per_occurrence [0x4B, 0x00, 0x4B] cfgK "0x4b"
    rfl rfl rfl).trans (by decide)

/-! ## Claim C7 -/

/-- Cancellation only truncates: the never-cancelled scan result extends the
cancelled scan result on the right; the state evolution (cursor, matches per
iteration) is identical up to the iteration where the cancelled run stops. -/
theorem scanLoop_cancel_left_factor (bv : BinaryView) (scans : List ScanConfig)
    (cancel : Nat → Bool) :
    ∀ fuel o k, ∃ rest,
      scanLoop bv scans (fun _ => false) fuel o k
        = scanLoop bv scans cancel fuel o k ++ rest := by
  intro fuel
  induction fuel with
  | zero => intro o k; exact ⟨[], rfl⟩
  | succ fuel ih =>
    intro o k
    by_cases heof : bv.mem.length ≤ o
    · exact ⟨[], by simp [scanLoop, heof]⟩
    · by_cases hc : cancel k = true
      · refine ⟨scanLoop bv scans (fun _ => false) (fuel + 1) o k, ?_⟩
        rw [show scanLoop bv scans cancel (fuel + 1) o k = [] by
          simp [scanLoop, hc]]
        rfl
      · rw [scanLoop, scanLoop,
          if_neg (show ¬(bv.mem.length ≤ o ∨ ((fun (_ : Nat) => false) k) = true) by
            simp [heof]),
          if_neg (show ¬(bv.mem.length ≤ o ∨ cancel k = true) by simp [heof, hc])]
        rcases hnb : next_byte bv o with ⟨b, o1⟩
        cases b with
        | none => exact ⟨[], rfl⟩
        | some b =>
          rcases htp : triggerPass bv scans b o1 with ⟨ms, o2⟩
          obtain ⟨rest, hrest⟩ := ih o2 (k + 1)
          exact ⟨rest, by simp [hnb, htp, hrest]⟩

/-- C7: cancellation is cooperative and graceful.  (i) When the cancellation
flag is observed at an iteration check of the data-scan loop, the loop stops
and contributes nothing further, so the scan returns exactly the matches
confirmed before that check — it returns normally, as a total function.
(ii) The cancelled scan's result list is an initial segment of the
uncancelled scan's.  (iii) When `run` observes cancellation at its final
check and the aggregated results are non-empty, it still applies symbols and
displays the report rather than discarding the partial results. -/
theorem C7_cancellation_graceful (bv : BinaryView) (configs : List ScanConfig)
    (cancel : Nat → Bool) (fuel o k : Nat) (hc : cancel k = true)
    (bv2 : BinaryView) (instructions : List MLILInstr)
    (configs2 : List ScanConfig) (static signature c1 c2 : Bool) (fuel2 : Nat)
    (hres : (CryptoScan.run bv2 instructions configs2 static signature
      c1 c2 true fuel2).results ≠ []) :
    scanLoop bv (staticScans configs) cancel fuel o k = []
    ∧ (∃ rest, run_data_constant_scans bv configs (fun _ => false) fuel
        = run_data_constant_scans bv configs cancel fuel ++ rest)
    ∧ (CryptoScan.run bv2 instructions configs2 static signature
        c1 c2 true fuel2).processedResults = true := by
  refine ⟨?_, ?_, ?_⟩
  · cases fuel with
    | zero => rfl
    | succ fuel => simp [scanLoop, hc]
  · exact scanLoop_cancel_left_factor bv (staticScans configs) cancel fuel 0 0
  · rcases hr : (CryptoScan.run bv2 instructions configs2 static signature
      c1 c2 true fuel2).results with _ | ⟨m, ms⟩
    · exact absurd hr hres
    · have : (CryptoScan.run bv2 instructions configs2 static signature
          c1 c2 true fuel2).processedResults
          = ((CryptoScan.run bv2 instructions configs2 static signature
            c1 c2 true fuel2).results.length != 0) := rfl
      rw [this, hr]
      rfl

/-- Witness for C7: a schedule cancelled from the start stops the data scan
immediately, and a run whose IL scan found a match still processes the result
under cancellation observed at the final check. -/
theorem C7_witness :
    scanLoop bv1 (staticScans [cfgAB]) (fun _ => true) 5 0 0 = []
    ∧ (∃ rest, run_data_constant_scans bv1 [cfgAB] (fun _ => false) 5
        = run_data_constant_scans bv1 [cfgAB] (fun _ => true) 5 ++ rest)
    ∧ (CryptoScan.run bv1 [constInstr 0x11223344 4] [cfg1234] true false
        false false true 1).processedResults = true :=
  C7_cancellation_graceful bv1 [cfgAB] (fun _ => true) 5 0 0 rfl
    bv1 [constInstr 0x11223344 4] [cfg1234] true false false false 1
    (by intro h; exact absurd (congrArg List.length h) (by decide))

/-! ## Claim C8 -/

theorem preorderNodesOps_of_all_isNone (ops : List (Option MLILInstr))
    (h : ops.all (fun o => o.isNone) = true) : preorderNodesOps ops = [] := by
  induction ops with
  | nil => rfl
  | cons hd tl ih =>
    cases hd with
    | none =>
      rw [preorderNodesOps]
      exact ih (by simpa using h)
    | some i => simp at h

mutual
theorem retrieve_eq_filter_preorder : ∀ t : MLILInstr, wfConstLeaves t = true →
    recurse_retrieve_consts t = (preorderNodes t).filter isConstInstr
  | .mk op ops c sz => by
    intro hwf
    rw [wfConstLeaves] at hwf
    have hops : wfConstLeavesOps ops = true := by
      simp at hwf
      exact hwf.2
    by_cases hc : op = .MLIL_CONST
    · subst hc
      have hnone : ops.all (fun o => o.isNone) = true := by
        simp at hwf
        rw [List.all_eq_true]
        intro x hx
        simp [hwf.1 x hx]
      rw [recurse_retrieve_consts, if_pos rfl, preorderNodes, List.filter_cons,
        if_pos (by rfl), preorderNodesOps_of_all_isNone ops hnone]
      rfl
    · rw [recurse_retrieve_consts, if_neg hc, preorderNodes, List.filter_cons,
        if_neg (by simpa [isConstInstr, MLILInstr.operation] using hc)]
      exact retrieveOps_eq_filter_preorder ops hops
theorem retrieveOps_eq_filter_preorder :
    ∀ l : List (Option MLILInstr), wfConstLeavesOps l = true →
    retrieveFromOperands l = (preorderNodesOps l).filter isConstInstr
  | [] => fun _ => rfl
  | none :: rest => fun h => by
    rw [retrieveFromOperands, preorderNodesOps]
    exact retrieveOps_eq_filter_preorder rest (by rw [wfConstLeavesOps] at h; exact h)
  | some i :: rest => fun h => by
    rw [wfConstLeavesOps] at h
    simp only [Bool.and_eq_true] at h
    rw [retrieveFromOperands, preorderNodesOps, List.filter_append,
      retrieve_eq_filter_preorder i h.1, retrieveOps_eq_filter_preorder rest h.2]
end

/-- C8: on well-formed operand trees (constant nodes are leaves, as BinaryNinja
guarantees), the constant extractor returns exactly the constant-value leaf
nodes of the tree, in pre-order, left-to-right operand order — hence exactly
`k` nodes for a tree with `k` constant leaves at any depth, the empty sequence
when there are none, and nothing for operands that are neither constants nor
sub-instructions. -/
theorem C8_extractor_yields_preorder_const_leaves (t : MLILInstr)
    (hwf : wfConstLeaves t = true) :
    recurse_retrieve_consts t = (preorderNodes t).filter isConstInstr
    ∧ (recurse_retrieve_consts t).length
      = (preorderNodes t).countP isConstInstr := by
  refine ⟨retrieve_eq_filter_preorder t hwf, ?_⟩
  rw [retrieve_eq_filter_preorder t hwf, ← List.countP_eq_length_filter]

/-- Witness for C8 on a depth-two tree with two constant leaves and a
non-instruction operand: the extractor returns exactly the two constants in
pre-order. -/
theorem C8_witness :
    recurse_retrieve_consts exTree = [constInstr 7 4, constInstr 9 4]
    ∧ (recurse_retrieve_consts exTree).length = 2 := by
  have h := C8_extractor_yields_preorder_const_leaves exTree rfl
  exact ⟨h.1.trans rfl, by rw [h.2]; rfl⟩

/-! ## Claim C10 -/

/-- C10: when every configured flag token strips to hexadecimal digit
characters only (the shape the JSON configs use, e.g. `0x63`), no IL match can
reference a constant with a negative value: Python renders a negative value
with a leading minus sign, while the chunk rendering is a concatenation of
hex digits, so the two strings can never be equal. -/
theorem C10_negative_constant_never_matches (instructions : List MLILInstr)
    (configs : List ScanConfig)
    (htok : ∀ cfg ∈ configs, ∀ f ∈ cfg.flags, ∀ c ∈ stripHexChars f.data,
      isHexDigitChar c = true) :
    (run_il_constant_scans instructions configs).all
      (fun m => decide (0 ≤ m.instr.constant)) = true := by
  rw [List.all_eq_true]
  intro m hm
  simp only [decide_eq_true_eq]
  simp only [run_il_constant_scans, List.mem_flatMap] at hm
  obtain ⟨instr, hinstr, hm⟩ := hm
  by_cases hsz : instr.size > 1
  case neg =>
    rw [if_neg hsz] at hm
    exact absurd hm (List.not_mem_nil m)
  rw [if_pos hsz] at hm
  rw [List.mem_flatMap] at hm
  obtain ⟨scan, hscan, hm⟩ := hm
  rw [List.mem_flatMap] at hm
  obtain ⟨chunk, hchunk, hm⟩ := hm
  by_cases hcond : chunk.length = instr.size ∧
      constValueChars instr.constant = flagValueChars chunk
  case neg =>
    rw [if_neg hcond] at hm
    exact absurd hm (List.not_mem_nil m)
  rw [if_pos hcond] at hm
  simp only [List.mem_singleton] at hm
  subst hm
  show 0 ≤ instr.constant
  rcases lt_or_ge instr.constant 0 with hneg | hpos
  · exfalso
    have hchars : '-' ∈ flagValueChars chunk := by
      rw [← hcond.2, constValueChars, if_pos hneg]
      exact List.mem_cons_self _ _
    rw [flagValueChars, List.mem_flatten] at hchars
    obtain ⟨l, hl, hcl⟩ := hchars
    rw [List.mem_map] at hl
    obtain ⟨f, hf, rfl⟩ := hl
    have hff : f ∈ scan.flags := by
      rw [ilChunks] at hchunk
      simp only [List.mem_map] at hchunk
      obtain ⟨i, hi, rfl⟩ := hchunk
      exact List.mem_of_mem_drop (List.mem_of_mem_take hf)
    have hsc : scan ∈ configs := by
      rw [staticScans, List.mem_filter] at hscan
      exact hscan.1
    exact absurd (htok scan hsc f hff '-' hcl) (by decide)
  · exact hpos

/-- Witness for C10: a two-byte-wide constant with the negative value -300
produces no match against a well-formed config, and the all-nonnegative
property holds on the resulting (empty) match list. -/
theorem C10_witness :
    (run_il_constant_scans [constInstr (-300) 2] [cfg1234]).all
      (fun m => decide (0 ≤ m.instr.constant)) = true :=
  C10_negative_constant_never_matches [constInstr (-300) 2] [cfg1234] (by decide)
